import Mathlib

/-!
Verification of the model-selection search engine of the
Healthcare-Security-Analysis repository (`src/ModelTraining/compareModels.py`)
and of the coefficient-export steps of the per-domain trainers
(`train_academic_model_new.py`, `train_healthcare_model_new.py`).

The Python source is shallowly embedded: real-valued data are modelled as
rationals (the behaviours at issue are exact, not rounding artefacts),
matrices as lists of rows, and the mutable `max_score` / `winnerString`
pair of the search loop as an explicit accumulator folded over the result
log.
-/

namespace HSA

/-! ## Best-so-far accumulator (compareModels.py lines 118-119, 164-167,
189-192, 228-231)

Each grid-search call yields one `SearchResult`: its best cross-validated
score (`GS.best_score_`) and the descriptor string the script would build
for it.  The script keeps the pair `max_score` / `winnerString`, updated
by `if GS.best_score_ > max_score`. -/

/-- One entry of the result log: a configuration's best cross-validated
score and its descriptor (model, transform, selection, params). -/
structure SearchResult where
  score : ℚ
  desc : String
deriving DecidableEq

/-- The running best record: `max_score` and `winnerString` of
compareModels.py. -/
structure Best where
  max_score : ℚ
  winnerString : String
deriving DecidableEq

/-- Lines 118-119: `max_score = 0.0`, `winnerString = ""`. -/
def initBest : Best := ⟨0, ""⟩

/-- Lines 164-167 (and the two identical sites at 189-192, 228-231):
`if GS.best_score_ > max_score: winnerString = ...; max_score = ...`. -/
def updateBest (b : Best) (r : SearchResult) : Best :=
  if r.score > b.max_score then ⟨r.score, r.desc⟩ else b

/-- The whole run: every grid-search result is appended to the log and
folded into the running best, starting from `initBest`. -/
def runBest (log : List SearchResult) : Best := log.foldl updateBest initBest

lemma updateBest_max_score (b : Best) (r : SearchResult) :
    (updateBest b r).max_score = max b.max_score r.score := by
  unfold updateBest
  split
  · next h => exact (max_eq_right (le_of_lt h)).symm
  · next h => exact (max_eq_left (le_of_not_lt h)).symm

lemma foldl_updateBest_max_score (b : Best) (l : List SearchResult) :
    (l.foldl updateBest b).max_score =
      (l.map SearchResult.score).foldl max b.max_score := by
  induction l generalizing b with
  | nil => rfl
  | cons r t ih =>
      simp only [List.foldl_cons, List.map_cons, ih, updateBest_max_score]

lemma le_foldl_max (init : ℚ) (l : List ℚ) : init ≤ l.foldl max init := by
  induction l generalizing init with
  | nil => exact le_refl _
  | cons x t ih => exact le_trans (le_max_left init x) (ih (max init x))

lemma mem_le_foldl_max {a : ℚ} {l : List ℚ} (init : ℚ) (h : a ∈ l) :
    a ≤ l.foldl max init := by
  induction l generalizing init with
  | nil => cases h
  | cons x t ih =>
      rcases List.mem_cons.mp h with rfl | hm
      · exact le_trans (le_max_right init a) (le_foldl_max _ t)
      · exact ih _ hm

lemma foldl_max_mem (l : List ℚ) (init : ℚ) :
    l.foldl max init = init ∨ l.foldl max init ∈ l := by
  induction l generalizing init with
  | nil => exact Or.inl rfl
  | cons x t ih =>
      rcases ih (max init x) with h | h
      · rcases le_total init x with hle | hle
        · exact Or.inr (by rw [List.foldl_cons, h, max_eq_right hle]; exact List.mem_cons_self _ _)
        · exact Or.inl (by rw [List.foldl_cons, h, max_eq_left hle])
      · exact Or.inr (List.mem_cons_of_mem _ h)

/-- C1: the best-so-far record is replaced only on a strictly greater
score; on a tie (or lower score) the current record is kept, so the
first-encountered configuration of a tying pair is retained for the rest
of the run. -/
theorem best_replaced_only_on_strict_improvement :
    (∀ b r, r.score ≤ b.max_score → updateBest b r = b) ∧
    (∀ b r, b.max_score < r.score → updateBest b r = ⟨r.score, r.desc⟩) ∧
    (∀ b l₁ r₁ l₂ r₂, r₂.score = r₁.score →
      List.foldl updateBest b (l₁ ++ r₁ :: (l₂ ++ [r₂])) =
      List.foldl updateBest b (l₁ ++ r₁ :: l₂)) := by
  refine ⟨?_, ?_, ?_⟩
  · intro b r h
    unfold updateBest
    rw [if_neg (not_lt_of_le h)]
  · intro b r h
    unfold updateBest
    rw [if_pos h]
  · intro b l₁ r₁ l₂ r₂ heq
    have hsplit : l₁ ++ r₁ :: (l₂ ++ [r₂]) = (l₁ ++ r₁ :: l₂) ++ [r₂] := by
      simp
    rw [hsplit, List.foldl_append, List.foldl_cons, List.foldl_nil]
    set b' := List.foldl updateBest b (l₁ ++ r₁ :: l₂) with hb'
    have hmem : r₁.score ∈ (l₁ ++ r₁ :: l₂).map SearchResult.score := by
      simp
    have hle : r₂.score ≤ b'.max_score := by
      rw [hb', foldl_updateBest_max_score, heq]
      exact mem_le_foldl_max _ hmem
    unfold updateBest
    rw [if_neg (not_lt_of_le hle)]

/-- Witness for C1 at concrete inputs: a strictly better result replaces
the record, a tying result does not, and a later tying result leaves a
whole run's outcome unchanged. -/
theorem best_replaced_only_on_strict_improvement_witness :
    updateBest ⟨1, "a"⟩ ⟨1, "b"⟩ = ⟨1, "a"⟩ ∧
    updateBest ⟨1, "a"⟩ ⟨2, "b"⟩ = ⟨2, "b"⟩ ∧
    List.foldl updateBest initBest ([] ++ ⟨1, "x"⟩ :: ([] ++ [⟨1, "y"⟩])) =
      List.foldl updateBest initBest ([] ++ ⟨1, "x"⟩ :: []) :=
  ⟨best_replaced_only_on_strict_improvement.1 ⟨1, "a"⟩ ⟨1, "b"⟩ (le_refl _),
   best_replaced_only_on_strict_improvement.2.1 ⟨1, "a"⟩ ⟨2, "b"⟩ (by norm_num),
   best_replaced_only_on_strict_improvement.2.2 initBest [] ⟨1, "x"⟩ [] ⟨1, "y"⟩ rfl⟩

/-- C2: the record starts at score `0.0` with an empty descriptor, its
score never decreases as results are folded in, and — the logged scores
being cross-validated accuracies, hence nonnegative — at the end of a
nonempty run it equals the maximum score among all entries of the result
log. -/
theorem best_score_monotone_and_equals_log_max :
    initBest = ⟨0, ""⟩ ∧
    (∀ b r, b.max_score ≤ (updateBest b r).max_score) ∧
    (∀ b l m, (List.foldl updateBest b l).max_score ≤
      (List.foldl updateBest b (l ++ m)).max_score) ∧
    (∀ log, log ≠ [] → (∀ r ∈ log, 0 ≤ r.score) →
      (runBest log).max_score ∈ log.map SearchResult.score ∧
      ∀ r ∈ log, r.score ≤ (runBest log).max_score) := by
  refine ⟨rfl, ?_, ?_, ?_⟩
  · intro b r
    rw [updateBest_max_score]
    exact le_max_left _ _
  · intro b l m
    rw [List.foldl_append]
    have h : ∀ (b' : Best) (m' : List SearchResult),
        b'.max_score ≤ (m'.foldl updateBest b').max_score := by
      intro b' m'
      rw [foldl_updateBest_max_score]
      exact le_foldl_max _ _
    exact h _ m
  · intro log hne hnn
    constructor
    · rw [runBest, foldl_updateBest_max_score]
      rcases foldl_max_mem (log.map SearchResult.score) initBest.max_score with h | h
      · rcases List.exists_mem_of_ne_nil log hne with ⟨r, hr⟩
        have h0 : (log.map SearchResult.score).foldl max initBest.max_score = 0 := h
        have hle : r.score ≤ 0 := by
          have := mem_le_foldl_max (a := r.score) initBest.max_score
            (List.mem_map_of_mem SearchResult.score hr)
          rw [h0] at this
          exact this
        have : r.score = 0 := le_antisymm hle (hnn r hr)
        rw [h0, ← this]
        exact List.mem_map_of_mem SearchResult.score hr
      · exact h
    · intro r hr
      rw [runBest, foldl_updateBest_max_score]
      exact mem_le_foldl_max _ (List.mem_map_of_mem SearchResult.score hr)

/-- Witness for C2 at a concrete two-entry log with a tie: the final
score is in the log and bounds every entry. -/
theorem best_score_monotone_and_equals_log_max_witness :
    (runBest [⟨1/2, "a"⟩, ⟨1/2, "b"⟩]).max_score ∈
      List.map SearchResult.score [⟨1/2, "a"⟩, ⟨1/2, "b"⟩] ∧
    ∀ r ∈ [(⟨1/2, "a"⟩ : SearchResult), ⟨1/2, "b"⟩],
      r.score ≤ (runBest [⟨1/2, "a"⟩, ⟨1/2, "b"⟩]).max_score :=
  best_score_monotone_and_equals_log_max.2.2.2 [⟨1/2, "a"⟩, ⟨1/2, "b"⟩]
    (by simp) (by
      intro r hr
      rcases List.mem_cons.mp hr with rfl | hr
      · norm_num
      · rcases List.mem_cons.mp hr with rfl | hr
        · norm_num
        · cases hr)

/-! ## Configuration enumeration (compareModels.py lines 122-194, 197-231)

The main loop nests classifier → transform → feature-count → (chi-squared
block, then mutual-information block); a second, separate loop afterwards
runs the all-features configurations, nesting classifier → transform. -/

/-- A feature-ranking method: the chi-squared block (lines 142-167) or the
mutual-information block (lines 169-192) of an iteration. -/
inductive Method where
  | chiSquared
  | mutualInfo
deriving DecidableEq

/-- Feature selection of a configuration: remove the `nfeat` least
informative features under a ranking method (`X[:,inds[n_feat:]]`), or use
all features (the second loop, lines 197-231). -/
inductive Selection where
  | removeLeast (nfeat : ℕ) (m : Method)
  | allFeatures
deriving DecidableEq

/-- One enumerated configuration: classifier index (`n_clf`), transform
index (`n_trans`), and the feature selection. -/
structure Config where
  n_clf : ℕ
  n_trans : ℕ
  sel : Selection
deriving DecidableEq

instance : Inhabited Config := ⟨⟨0, 0, Selection.allFeatures⟩⟩

/-- `classifiers` has 4 entries (line 85). -/
def numClassifiers : ℕ := 4

/-- `range(0,5)` over the five transforms (lines 126, 204). -/
def numTrans : ℕ := 5

/-- The fixed candidate set of least-informative-feature counts to remove
(line 140). -/
def featCounts : List ℕ := [2500, 3500, 4500]

/-- The full enumeration order of the script: first the nested main loop
(lines 122-194; per feature count, the chi-squared block precedes the
mutual-information block), then the separate all-features loop
(lines 197-231). -/
def configs : List Config :=
  ((List.range numClassifiers).flatMap fun c =>
    (List.range numTrans).flatMap fun t =>
      featCounts.flatMap fun k =>
        [⟨c, t, Selection.removeLeast k Method.chiSquared⟩,
         ⟨c, t, Selection.removeLeast k Method.mutualInfo⟩]) ++
  ((List.range numClassifiers).flatMap fun c =>
    (List.range numTrans).map fun t => ⟨c, t, Selection.allFeatures⟩)

/-- C3 counterexample: the six reduced-feature configurations of the pair
(classifier 0, transform 0) are followed immediately by the first
reduced-feature configuration of (classifier 0, transform 1) — not by the
"all features" configuration of (classifier 0, transform 0), which only
appears at position 120, after every reduced-feature configuration of
every pair. -/
theorem all_features_pass_not_adjacent_to_pair :
    configs.take 6 =
      [⟨0, 0, Selection.removeLeast 2500 Method.chiSquared⟩,
       ⟨0, 0, Selection.removeLeast 2500 Method.mutualInfo⟩,
       ⟨0, 0, Selection.removeLeast 3500 Method.chiSquared⟩,
       ⟨0, 0, Selection.removeLeast 3500 Method.mutualInfo⟩,
       ⟨0, 0, Selection.removeLeast 4500 Method.chiSquared⟩,
       ⟨0, 0, Selection.removeLeast 4500 Method.mutualInfo⟩] ∧
    configs.getD 6 default = ⟨0, 1, Selection.removeLeast 2500 Method.chiSquared⟩ ∧
    configs.getD 6 default ≠ ⟨0, 0, Selection.allFeatures⟩ ∧
    configs.getD 120 default = ⟨0, 0, Selection.allFeatures⟩ := by decide

/-- Closed form of the enumeration order that `configs` is proved to
follow: position `i < 120` holds the reduced-feature configuration with
classifier `i / 30`, transform `(i % 30) / 6`, feature count
`featCounts[(i % 6) / 2]`, chi-squared on even `i` and mutual information
on odd `i`; positions `120 + j` hold the all-features configurations with
classifier `j / 5` and transform `j % 5`. -/
def expectedConfig (i : ℕ) : Config :=
  if i < 120 then
    ⟨i / 30, (i % 30) / 6,
     Selection.removeLeast (featCounts.getD ((i % 6) / 2) 0)
       (if i % 2 = 0 then Method.chiSquared else Method.mutualInfo)⟩
  else ⟨(i - 120) / 5, (i - 120) % 5, Selection.allFeatures⟩

/-- C3 amended: the enumeration is deterministic and nests classifier →
transform → feature count → ranking method (chi-squared before mutual
information), but the "all features" configurations are not interleaved
after each (classifier, transform) pair: they form a second pass, after
all 120 reduced-feature configurations, ordered classifier → transform. -/
theorem configs_enumeration_order :
    configs = (List.range 140).map expectedConfig := by decide

/-! ## Feature ranking (compareModels.py lines 68-76, 145-147, 173)

`mi_inds = np.argsort(mi_scores)` and `chi_inds = np.argsort(chi_scores)`
sort the column indices ascending by score; `X[:,inds[n_feat:]]` then
drops the first `n_feat` indices. -/

/-- `np.argsort` on a vector of (defined) scores: the column indices
ordered ascending by score. -/
def argsort (scores : List ℚ) : List ℕ :=
  List.insertionSort (fun i j => scores.getD i 0 ≤ scores.getD j 0)
    (List.range scores.length)

/-- `X[:, inds]`: keep the columns listed in `inds`, in that order. -/
def selectCols (X : List (List ℚ)) (inds : List ℕ) : List (List ℚ) :=
  X.map fun row => inds.map fun i => row.getD i 0

lemma argsort_sorted (scores : List ℚ) :
    List.Sorted (fun i j => scores.getD i 0 ≤ scores.getD j 0)
      (argsort scores) := by
  haveI : IsTotal ℕ (fun i j => scores.getD i 0 ≤ scores.getD j 0) :=
    ⟨fun i j => le_total _ _⟩
  haveI : IsTrans ℕ (fun i j => scores.getD i 0 ≤ scores.getD j 0) :=
    ⟨fun _ _ _ h h' => le_trans h h'⟩
  exact List.sorted_insertionSort _ _

/-- C4: each ranking order is a permutation of the column indices sorted
ascending by score, so for every `k` each of the first `k` (discarded)
indices scores no higher than each kept index, and when `k` does not
exceed the column count, exactly `length − k` columns are kept and the
selected matrix has one entry per kept column in each row. -/
theorem ranking_ascending_least_informative_first :
    ∀ (scores : List ℚ) (k : ℕ),
      (argsort scores).Perm (List.range scores.length) ∧
      (∀ i ∈ (argsort scores).take k, ∀ j ∈ (argsort scores).drop k,
        scores.getD i 0 ≤ scores.getD j 0) ∧
      (k ≤ scores.length →
        ((argsort scores).drop k).length = scores.length - k) ∧
      (∀ X, ∀ row ∈ selectCols X ((argsort scores).drop k),
        row.length = ((argsort scores).drop k).length) := by
  intro scores k
  have hperm : (argsort scores).Perm (List.range scores.length) :=
    List.perm_insertionSort _ _
  refine ⟨hperm, ?_, ?_, ?_⟩
  · intro i hi j hj
    have hsorted := argsort_sorted scores
    have hsplit : argsort scores =
        (argsort scores).take k ++ (argsort scores).drop k :=
      (List.take_append_drop k (argsort scores)).symm
    rw [List.Sorted, hsplit, List.pairwise_append] at hsorted
    exact hsorted.2.2 i hi j hj
  · intro hk
    rw [List.length_drop, hperm.length_eq, List.length_range]
  · intro X row hrow
    rcases List.mem_map.mp hrow with ⟨r, _, rfl⟩
    exact List.length_map _ _

/-- Witness for C4 at scores `[3, 1, 2]` with `k = 1`: column 1 (score 1)
is discarded, columns 2 and 0 are kept. -/
theorem ranking_ascending_least_informative_first_witness :
    (argsort [(3 : ℚ), 1, 2]).Perm (List.range 3) ∧
    (∀ i ∈ (argsort [(3 : ℚ), 1, 2]).take 1,
      ∀ j ∈ (argsort [(3 : ℚ), 1, 2]).drop 1,
        List.getD [(3 : ℚ), 1, 2] i 0 ≤ List.getD [(3 : ℚ), 1, 2] j 0) ∧
    ((argsort [(3 : ℚ), 1, 2]).drop 1).length = 3 - 1 :=
  have h := ranking_ascending_least_informative_first [(3 : ℚ), 1, 2] 1
  ⟨h.1, h.2.1, h.2.2.1 (by norm_num)⟩

/-! ## Feature transform application (compareModels.py lines 41-47, 66-67,
130-136, 208-212)

The script copies the feature matrix and runs
`X[1:3] = trans[n_trans](X[1:3] + np.finfo(float).eps)`.  On a 2-D numpy
array, basic slicing `X[1:3]` selects ROWS 1 and 2 (samples), not columns,
so the assignment rewrites every column of those two rows and leaves every
other row untouched. -/

/-- `np.finfo(float).eps` = 2⁻⁵². -/
def eps : ℚ := 1 / 2 ^ 52

/-- Lines 41-47: the identity transformation (`trans[0]`, "None"). -/
def notrans (X : List (List ℚ)) : List (List ℚ) := X

/-- `block + np.finfo(float).eps`: add eps to every entry.  The rational
addition is exact whereas the float64 program absorbs the eps for entries
of magnitude ≥ 2, so no conclusion below rests on the eps shift itself:
the MinMax transform used in the theorem is invariant under a common
column shift, making the model and the float64 program agree exactly on
the transformed block. -/
def addEps (B : List (List ℚ)) : List (List ℚ) := B.map (List.map (· + eps))

/-- Column `j` of a block, as the list of its entries. -/
def colVals (B : List (List ℚ)) (j : ℕ) : List ℚ := B.map fun r => r.getD j 0

/-- Minimum of a list of rationals (0 for the empty list). -/
def listMin : List ℚ → ℚ
  | [] => 0
  | x :: t => t.foldl min x

/-- Maximum of a list of rationals (0 for the empty list). -/
def listMax : List ℚ → ℚ
  | [] => 0
  | x :: t => t.foldl max x

/-- Modelled from the spec: the MinMax transform (`trans[1]`,
`scaler1.fit_transform` with sklearn's MinMaxScaler, lines 90-92;
spec §4.2 "min-max rescale to [0,1] per column", fitted solely on the
block passed in): every entry is mapped to
`(x − column min) / (column max − column min)`. -/
def minmax (B : List (List ℚ)) : List (List ℚ) :=
  B.map fun row => (List.range row.length).map fun j =>
    (row.getD j 0 - listMin (colVals B j)) /
      (listMax (colVals B j) - listMin (colVals B j))

/-- Lines 132-136 (and 209-212): `X = deepcopy(X_all);
X[1:3] = trans[n_trans](X[1:3] + eps)` — rows 1 and 2 are replaced by the
transformed block, all other rows are copied unchanged. -/
def applySliceTransform (f : List (List ℚ) → List (List ℚ))
    (X : List (List ℚ)) : List (List ℚ) :=
  X.take 1 ++ f (addEps ((X.drop 1).take 2)) ++ X.drop 3

/-- Lines 66-67: `disMask = [False, False] + [True] * (cols - 2)` — the
first two COLUMNS are the continuous ones, the rest are discrete. -/
def disMask (cols : ℕ) : List Bool := [false, false] ++ List.replicate (cols - 2) true

/-- C5 at the failing input `X_all = [[1,2,3],[4,5,6],[7,8,9]]` with the
MinMax transform (`trans[1]`): the slice rewires rows, so the block fitted
and transformed is rows 1-2; per column its two values map to 0 and 1
exactly (the common eps shift cancels, and 0, 1 and 3/3 are exact in
float64, so the program computes the same block bit for bit).  Column 2
is discrete per `disMask 3`, yet entry (row 1, column 2) of the evaluated
matrix is 0 instead of the original 6, while row 0 — continuous columns
included — is left completely untransformed. -/
theorem slice_transform_touches_discrete_columns :
    (disMask 3).getD 2 false = true ∧
    ((applySliceTransform minmax [[1, 2, 3], [4, 5, 6], [7, 8, 9]]).getD 1 []).getD 2 0 = 0 ∧
    (([[1, 2, 3], [4, 5, 6], [7, 8, 9]] : List (List ℚ)).getD 1 []).getD 2 0 = 6 ∧
    ((applySliceTransform minmax [[1, 2, 3], [4, 5, 6], [7, 8, 9]]).getD 1 []).getD 2 0 ≠
      (([[1, 2, 3], [4, 5, 6], [7, 8, 9]] : List (List ℚ)).getD 1 []).getD 2 0 ∧
    (disMask 3).getD 0 false = false ∧
    (applySliceTransform minmax [[1, 2, 3], [4, 5, 6], [7, 8, 9]]).getD 0 [] =
      ([[1, 2, 3], [4, 5, 6], [7, 8, 9]] : List (List ℚ)).getD 0 [] := by
  have hb : minmax (addEps [[4, 5, 6], [7, 8, 9]]) = [[0, 0, 0], [1, 1, 1]] := by
    norm_num [minmax, addEps, colVals, listMin, listMax, eps, min_def,
      max_def, List.range_succ]
  have hx : applySliceTransform minmax [[1, 2, 3], [4, 5, 6], [7, 8, 9]] =
      [[1, 2, 3], [0, 0, 0], [1, 1, 1]] := by
    show [[1, 2, 3]] ++ minmax (addEps [[4, 5, 6], [7, 8, 9]]) ++ [] =
      [[1, 2, 3], [0, 0, 0], [1, 1, 1]]
    rw [hb]
    rfl
  rw [hx]
  refine ⟨rfl, rfl, rfl, ?_, rfl, rfl⟩
  norm_num

/-! ## Grid search skips and the written report (compareModels.py lines
103-112, 154-161)

`parameterSets[0]` (line 105) contains combinations the estimator refuses
(e.g. penalty 'l1' with solver 'lbfgs').  The script delegates the grid to
`GridSearchCV` and then writes, per cell, only `GS.best_score_` and
`GS.best_params_` (lines 158-161). -/

/-- One hyperparameter assignment as name-value pairs. -/
abbrev Params := List (String × String)

/-- Modelled from the spec: the grid-search cell evaluation.
`GridSearchCV` is an external sklearn estimator, not code of this
repository; per the spec (§4.3, §7) a hyperparameter assignment whose fit
raises a hard error is caught and skipped (score `none`) without aborting
the rest of the grid, and ties between fitted assignments are broken by
enumeration order (first seen wins). -/
def gridStep (acc : Option (Params × ℚ)) (c : Params × Option ℚ) :
    Option (Params × ℚ) :=
  match c.2, acc with
  | none, a => a
  | some s, none => some (c.1, s)
  | some s, some pb => if s > pb.2 then some (c.1, s) else some pb

/-- The cell's result: fold `gridStep` over the enumerated combinations. -/
def gridBest (cells : List (Params × Option ℚ)) : Option (Params × ℚ) :=
  cells.foldl gridStep none

/-- Lines 158-161: the strings written to the report for one grid cell —
the accuracy line (the score, already formatted to 16 decimals), one
token per winning hyperparameter, and a trailing newline.  Nothing else
is written for the cell. -/
def cellLines (accStr : String) (best : Params) : List String :=
  ("\t\t\tAcc:" ++ accStr ++ "\t") ::
    best.map (fun pv => pv.1 ++ ":" ++ pv.2 ++ " ") ++ ["\n"]

/-- A logistic-regression grid cell from `parameterSets[0]` (line 105)
holding the refused combination penalty 'l1' with solver 'lbfgs'
(skipped, score `none`) and a fitted combination scoring 9/10. -/
def demoGrid : List (Params × Option ℚ) :=
  [([("penalty", "l1"), ("solver", "lbfgs")], none),
   ([("penalty", "l2"), ("solver", "lbfgs")], some (9 / 10))]

/-- Whether the character sequence `pat` occurs anywhere in `cs`. -/
def occursIn (pat : List Char) : List Char → Bool
  | [] => pat.isEmpty
  | c :: cs => (List.take pat.length (c :: cs) == pat) || occursIn pat cs

/-- C6 counterexample: on `demoGrid` the refused combination is skipped
and the fitted one wins, but the lines written to the report for the cell
are exactly the accuracy line, the winning parameter tokens, and a
newline — no line so much as contains the character sequence "l1", so the
skipped cell is not itemized in the written report. -/
theorem skipped_cells_not_itemized_in_report :
    gridBest demoGrid = some ([("penalty", "l2"), ("solver", "lbfgs")], 9 / 10) ∧
    cellLines "0.9000000000000000" [("penalty", "l2"), ("solver", "lbfgs")] =
      ["\t\t\tAcc:0.9000000000000000\t", "penalty:l2 ", "solver:lbfgs ", "\n"] ∧
    ∀ line ∈ cellLines "0.9000000000000000" [("penalty", "l2"), ("solver", "lbfgs")],
      occursIn ['l', '1'] line.toList = false := by
  refine ⟨rfl, rfl, ?_⟩
  decide

lemma gridStep_of_none {acc : Option (Params × ℚ)} {c : Params × Option ℚ}
    (h : c.2 = none) : gridStep acc c = acc := by
  unfold gridStep
  rw [h]

lemma gridStep_cases (acc : Option (Params × ℚ)) (c : Params × Option ℚ) :
    gridStep acc c = acc ∨
      ∃ s, c.2 = some s ∧ gridStep acc c = some (c.1, s) := by
  rcases c with ⟨p, _ | s⟩
  · exact Or.inl rfl
  · rcases acc with _ | pb
    · exact Or.inr ⟨s, rfl, rfl⟩
    · by_cases hgt : s > pb.2
      · exact Or.inr ⟨s, rfl, by simp [gridStep, hgt]⟩
      · exact Or.inl (by simp [gridStep, hgt])

lemma gridStep_eq_none {acc : Option (Params × ℚ)} {c : Params × Option ℚ}
    (h : gridStep acc c = none) : acc = none ∧ c.2 = none := by
  rcases c with ⟨p, _ | s⟩ <;> rcases acc with _ | pb
  · exact ⟨rfl, rfl⟩
  · exact ⟨h, rfl⟩
  · simp [gridStep] at h
  · simp only [gridStep] at h
    split at h <;> cases h

lemma gridStep_ne_none_of_acc {acc : Option (Params × ℚ)}
    (c : Params × Option ℚ) (h : acc ≠ none) : gridStep acc c ≠ none :=
  fun hn => h (gridStep_eq_none hn).1

lemma gridStep_ne_none_of_fit {c : Params × Option ℚ}
    (acc : Option (Params × ℚ)) (h : c.2 ≠ none) : gridStep acc c ≠ none :=
  fun hn => h (gridStep_eq_none hn).2

lemma foldl_gridStep_ne_none (cells : List (Params × Option ℚ)) :
    ∀ acc : Option (Params × ℚ), acc ≠ none →
      cells.foldl gridStep acc ≠ none := by
  induction cells with
  | nil => intro acc h; exact h
  | cons c t ih =>
      intro acc h
      rw [List.foldl_cons]
      exact ih _ (gridStep_ne_none_of_acc c h)

lemma gridBest_foldl_mem (cells : List (Params × Option ℚ)) :
    ∀ (acc : Option (Params × ℚ)) (p : Params) (s : ℚ),
      cells.foldl gridStep acc = some (p, s) →
      acc = some (p, s) ∨ (p, some s) ∈ cells := by
  induction cells with
  | nil => intro acc p s h; exact Or.inl h
  | cons c t ih =>
      intro acc p s h
      rw [List.foldl_cons] at h
      rcases ih _ p s h with hacc | hmem
      · rcases gridStep_cases acc c with heq | ⟨s', hc2, heq⟩
        · rw [heq] at hacc
          exact Or.inl hacc
        · rw [heq] at hacc
          obtain ⟨h1, h2⟩ := Prod.mk.injEq .. ▸ Option.some.inj hacc
          refine Or.inr (List.mem_cons.mpr (Or.inl ?_))
          have : (p, some s) = (c.1, c.2) := by rw [← h1, ← h2, hc2]
          rw [this]
      · exact Or.inr (List.mem_cons_of_mem _ hmem)

lemma gridBest_foldl_ne_none (cells : List (Params × Option ℚ)) :
    ∀ acc : Option (Params × ℚ),
      (∃ c ∈ cells, c.2 ≠ none) → cells.foldl gridStep acc ≠ none := by
  induction cells with
  | nil =>
      intro acc h
      rcases h with ⟨c, hc, _⟩
      cases hc
  | cons c t ih =>
      intro acc ⟨c', hc', h'⟩
      rw [List.foldl_cons]
      rcases List.mem_cons.mp hc' with rfl | hc'
      · exact foldl_gridStep_ne_none t _ (gridStep_ne_none_of_fit acc h')
      · exact ih _ ⟨c', hc', h'⟩

/-- C6 amended: a refused hyperparameter combination is caught and
skipped without aborting the grid — whenever any combination in the cell
fits, the grid search returns a result, and the returned winner is always
a successfully fitted combination of the cell (a refused one never
becomes the result and hence never the best-so-far); but skipped
combinations are NOT itemized in the written report: every line the
script writes for a cell is the accuracy line, a winning-parameter token,
or the trailing newline. -/
theorem refused_fit_skipped_but_not_reported :
    (∀ cells (p : Params) (s : ℚ), gridBest cells = some (p, s) →
      (p, some s) ∈ cells) ∧
    (∀ cells : List (Params × Option ℚ),
      (∃ c ∈ cells, c.2 ≠ none) → gridBest cells ≠ none) ∧
    (∀ accStr (best : Params), ∀ line ∈ cellLines accStr best,
      line = "\t\t\tAcc:" ++ accStr ++ "\t" ∨
      (∃ pv ∈ best, line = pv.1 ++ ":" ++ pv.2 ++ " ") ∨
      line = "\n") := by
  refine ⟨?_, ?_, ?_⟩
  · intro cells p s h
    rcases gridBest_foldl_mem cells none p s h with hacc | hmem
    · cases hacc
    · exact hmem
  · intro cells h
    exact gridBest_foldl_ne_none cells none h
  · intro accStr best line hline
    rcases List.mem_cons.mp hline with rfl | hline
    · exact Or.inl rfl
    · rcases List.mem_append.mp hline with hline | hline
      · rcases List.mem_map.mp hline with ⟨pv, hpv, rfl⟩
        exact Or.inr (Or.inl ⟨pv, hpv, rfl⟩)
      · rcases List.mem_singleton.mp hline with rfl
        exact Or.inr (Or.inr rfl)

/-- Witness for C6 (amended) on `demoGrid`: the winner is the fitted
combination (a member of the cell), and the grid search did not abort. -/
theorem refused_fit_skipped_but_not_reported_witness :
    (([("penalty", "l2"), ("solver", "lbfgs")], some ((9 : ℚ) / 10)) ∈ demoGrid) ∧
    gridBest demoGrid ≠ none :=
  ⟨refused_fit_skipped_but_not_reported.1 demoGrid
      [("penalty", "l2"), ("solver", "lbfgs")] (9 / 10) rfl,
   refused_fit_skipped_but_not_reported.2.1 demoGrid
      ⟨([("penalty", "l2"), ("solver", "lbfgs")], some (9 / 10)),
       List.mem_cons_of_mem _ (List.mem_singleton.mpr rfl), by simp⟩⟩

/-! ## Chi-squared ranking of degenerate columns (compareModels.py lines
74-76)

`chi_scores = chi2(X_all, Y)[0]; chi_inds = np.argsort(chi_scores)`.
The chi-squared statistic of a column compares, per class, the observed
column sum over that class's samples with the expected sum under the
label proportions. -/

/-- Number of samples carrying label `c`. -/
def classCount (y : List ℕ) (c : ℕ) : ℕ := (y.filter (· == c)).length

/-- Observed sum of column `j` over the samples labelled `c`. -/
def obsSum (X : List (List ℚ)) (y : List ℕ) (c j : ℕ) : ℚ :=
  (((X.zip y).filter fun p => p.2 == c).map fun p => p.1.getD j 0).sum

/-- Total sum of column `j`. -/
def colTotal (X : List (List ℚ)) (j : ℕ) : ℚ :=
  (X.map fun row => row.getD j 0).sum

/-- Modelled from the spec: the per-column chi-squared score
(`sklearn.feature_selection.chi2` is an external estimator, spec §4.1 and
glossary).  Per class the squared deviation of the observed class sum from
the expected one (label proportion × column total) is divided by the
expected sum and the terms are added.  For an all-zero column every
expected sum is zero and the float computation yields the undefined 0/0
(NaN), modelled as `none`. -/
def chi2score (X : List (List ℚ)) (y : List ℕ) (classes : List ℕ)
    (j : ℕ) : Option ℚ :=
  if colTotal X j = 0 then none
  else
    some ((classes.map fun c =>
      (obsSum X y c j -
        (classCount y c : ℚ) / (y.length : ℚ) * colTotal X j) ^ 2 /
        ((classCount y c : ℚ) / (y.length : ℚ) * colTotal X j)).sum)

/-- Score comparison used by argsort over possibly-NaN scores: an
undefined score (`none`, a NaN) compares after every defined score, since
`np.argsort` sorts NaNs to the end. -/
def optLE (a b : Option ℚ) : Prop :=
  match a, b with
  | _, none => True
  | none, some _ => False
  | some x, some y => x ≤ y

instance : DecidableRel optLE := fun a b =>
  match a, b with
  | none, none => isTrue trivial
  | some _, none => isTrue trivial
  | none, some _ => isFalse fun h => h
  | some x, some y => inferInstanceAs (Decidable (x ≤ y))

lemma optLE_total (a b : Option ℚ) : optLE a b ∨ optLE b a := by
  rcases a with _ | x <;> rcases b with _ | y
  · exact Or.inl trivial
  · exact Or.inr trivial
  · exact Or.inl trivial
  · exact (le_total x y).imp id id

lemma optLE_trans {a b c : Option ℚ} (hab : optLE a b) (hbc : optLE b c) :
    optLE a c := by
  rcases a with _ | x <;> rcases c with _ | z
  · exact trivial
  · rcases b with _ | y
    · exact absurd hbc (fun h => h)
    · exact absurd hab (fun h => h)
  · exact trivial
  · rcases b with _ | y
    · exact absurd hbc (fun h => h)
    · exact le_trans hab hbc

/-- `np.argsort` over the chi-squared score vector, NaN scores last. -/
def argsortOpt (scores : List (Option ℚ)) : List ℕ :=
  List.insertionSort
    (fun i j => optLE (scores.getD i none) (scores.getD j none))
    (List.range scores.length)

/-- A 4-sample, 2-column matrix whose column 0 is all zeros (hence has
zero variance). -/
def demoX : List (List ℚ) := [[0, 1], [0, 2], [0, 3], [0, 4]]

/-- Labels for `demoX`: two classes. -/
def demoY : List ℕ := [0, 0, 1, 1]

/-- The chi-squared scores of `demoX`'s two columns. -/
def demoChiScores : List (Option ℚ) :=
  [chi2score demoX demoY [0, 1] 0, chi2score demoX demoY [0, 1] 1]

lemma demo_score0 : chi2score demoX demoY [0, 1] 0 = none := by
  norm_num [chi2score, colTotal, demoX, demoY]

lemma demo_score1 : chi2score demoX demoY [0, 1] 1 = some (8 / 5) := by
  norm_num [chi2score, colTotal, obsSum, classCount, demoX, demoY]

/-- C7 counterexample: on `demoX` the all-zero-variance column 0 does not
crash the ranking, but its score is the undefined 0/0 (NaN), not a
minimum value, and argsort places it LAST — `[1, 0]` — so the zero column
sits in the most informative position instead of first. -/
theorem zero_variance_column_ranked_last :
    chi2score demoX demoY [0, 1] 0 = none ∧
    chi2score demoX demoY [0, 1] 1 = some (8 / 5) ∧
    argsortOpt demoChiScores = [1, 0] := by
  refine ⟨demo_score0, demo_score1, ?_⟩
  have h : demoChiScores = [none, some (8 / 5)] := by
    rw [demoChiScores, demo_score0, demo_score1]
  rw [h]
  simp [argsortOpt, List.insertionSort, List.orderedInsert, List.range_succ,
    optLE]

lemma colTotal_of_zero_col {X : List (List ℚ)} {j : ℕ}
    (h : ∀ row ∈ X, row.getD j 0 = 0) : colTotal X j = 0 :=
  List.sum_eq_zero fun x hx => by
    rcases List.mem_map.mp hx with ⟨row, hrow, rfl⟩
    exact h row hrow

lemma colTotal_of_const_col {X : List (List ℚ)} {j : ℕ} {v : ℚ}
    (h : ∀ row ∈ X, row.getD j 0 = v) : colTotal X j = X.length * v := by
  unfold colTotal
  rw [List.map_congr_left (g := fun _ => v) h, List.map_const',
    List.sum_replicate, nsmul_eq_mul]

lemma length_filter_zip_snd (c : ℕ) :
    ∀ (X : List (List ℚ)) (y : List ℕ), X.length = y.length →
      ((X.zip y).filter fun p => p.2 == c).length =
        (y.filter (· == c)).length := by
  intro X
  induction X with
  | nil =>
      intro y h
      cases y with
      | nil => rfl
      | cons b ys => simp at h
  | cons x xs ih =>
      intro y h
      cases y with
      | nil => simp at h
      | cons b ys =>
          have h' : xs.length = ys.length := by simpa using h
          by_cases hbc : (b == c) = true
          · simp [List.filter_cons, hbc, ih ys h']
          · simp [List.filter_cons, hbc, ih ys h']

lemma obsSum_of_const_col {X : List (List ℚ)} {y : List ℕ} {j : ℕ} {v : ℚ}
    (h : X.length = y.length) (hv : ∀ row ∈ X, row.getD j 0 = v) (c : ℕ) :
    obsSum X y c j = v * classCount y c := by
  unfold obsSum
  have hall : ∀ p ∈ (X.zip y).filter (fun p => p.2 == c),
      p.1.getD j 0 = v := by
    intro p hp
    exact hv p.1 (List.of_mem_zip (List.mem_of_mem_filter hp)).1
  rw [List.map_congr_left (g := fun _ => v) hall, List.map_const',
    List.sum_replicate, nsmul_eq_mul, length_filter_zip_snd c X y h]
  rw [mul_comm]
  rfl

/-- C7 amended: chi-squared ranking is total (it cannot crash); a
zero-variance column of CONSTANT NONZERO value scores exactly 0, the
minimum possible since every defined score of a nonnegative column is
nonnegative; but an ALL-ZERO column gets the undefined NaN score, and in
the argsort order every NaN-scored column follows every defined-scored
column — the all-zero column is ranked last (most informative), not
first. -/
theorem chi2_zero_column_nan_ranked_last :
    (∀ (X : List (List ℚ)) (y classes : List ℕ) (j : ℕ),
      (∀ row ∈ X, row.getD j 0 = 0) → chi2score X y classes j = none) ∧
    (∀ (X : List (List ℚ)) (y classes : List ℕ) (j : ℕ) (v : ℚ),
      X.length = y.length → (∀ row ∈ X, row.getD j 0 = v) →
      v * X.length ≠ 0 → chi2score X y classes j = some 0) ∧
    (∀ (X : List (List ℚ)) (y classes : List ℕ) (j : ℕ),
      (∀ row ∈ X, 0 ≤ row.getD j 0) →
      ∀ s, chi2score X y classes j = some s → 0 ≤ s) ∧
    (∀ scores : List (Option ℚ),
      List.Pairwise
        (fun i j => scores.getD i none = none → scores.getD j none = none)
        (argsortOpt scores)) := by
  refine ⟨?_, ?_, ?_, ?_⟩
  · intro X y classes j h
    rw [chi2score, if_pos (colTotal_of_zero_col h)]
  · intro X y classes j v hlen hv hnz
    have htot : colTotal X j = X.length * v := colTotal_of_const_col hv
    have hne : colTotal X j ≠ 0 := by
      rw [htot, mul_comm]
      exact hnz
    have hn : (X.length : ℚ) ≠ 0 := by
      intro h0
      exact hnz (by rw [h0, mul_zero])
    rw [chi2score, if_neg hne]
    congr 1
    apply List.sum_eq_zero
    intro t ht
    rcases List.mem_map.mp ht with ⟨c, _, rfl⟩
    have he : (classCount y c : ℚ) / (y.length : ℚ) * colTotal X j =
        v * classCount y c := by
      rw [htot, ← hlen]
      field_simp
      ring
    rw [obsSum_of_const_col hlen hv c, he, sub_self]
    rw [zero_pow (by norm_num : (2 : ℕ) ≠ 0), zero_div]
  · intro X y classes j hnn s hs
    rw [chi2score] at hs
    split at hs
    · cases hs
    · have hs' := Option.some.inj hs
      rw [← hs']
      apply List.sum_nonneg
      intro t ht
      rcases List.mem_map.mp ht with ⟨c, _, rfl⟩
      have htot : 0 ≤ colTotal X j := by
        apply List.sum_nonneg
        intro x hx
        rcases List.mem_map.mp hx with ⟨row, hrow, rfl⟩
        exact hnn row hrow
      exact div_nonneg (sq_nonneg _)
        (mul_nonneg (div_nonneg (Nat.cast_nonneg _) (Nat.cast_nonneg _)) htot)
  · intro scores
    haveI : IsTotal ℕ
        (fun i j => optLE (scores.getD i none) (scores.getD j none)) :=
      ⟨fun i j => optLE_total _ _⟩
    haveI : IsTrans ℕ
        (fun i j => optLE (scores.getD i none) (scores.getD j none)) :=
      ⟨fun _ _ _ h h' => optLE_trans h h'⟩
    have hs : List.Sorted
        (fun i j => optLE (scores.getD i none) (scores.getD j none))
        (argsortOpt scores) := List.sorted_insertionSort _ _
    refine hs.imp ?_
    intro i j hij hnone
    rw [hnone] at hij
    rcases hj : scores.getD j none with _ | x
    · rfl
    · rw [hj] at hij
      exact absurd hij (fun h => h)

/-- Witness for C7 (amended) at concrete columns: an all-zero column gets
`none`, a constant-2 column scores 0, the defined demo score 8/5 is
nonnegative, and the NaN-last pairwise property on the demo scores. -/
theorem chi2_zero_column_nan_ranked_last_witness :
    chi2score [[0], [0]] [0, 1] [0, 1] 0 = none ∧
    chi2score [[2], [2]] [0, 1] [0, 1] 0 = some 0 ∧
    (0 : ℚ) ≤ 8 / 5 ∧
    List.Pairwise
      (fun i j => demoChiScores.getD i none = none →
        demoChiScores.getD j none = none)
      (argsortOpt demoChiScores) :=
  ⟨chi2_zero_column_nan_ranked_last.1 [[0], [0]] [0, 1] [0, 1] 0
     (by intro row hrow
         rcases List.mem_cons.mp hrow with rfl | hrow
         · rfl
         · rw [List.mem_singleton.mp hrow]
           rfl),
   chi2_zero_column_nan_ranked_last.2.1 [[2], [2]] [0, 1] [0, 1] 0 2 rfl
     (by intro row hrow
         rcases List.mem_cons.mp hrow with rfl | hrow
         · rfl
         · rw [List.mem_singleton.mp hrow]
           rfl)
     (by norm_num),
   chi2_zero_column_nan_ranked_last.2.2.1 demoX demoY [0, 1] 1
     (by intro row hrow
         rw [demoX] at hrow
         rcases List.mem_cons.mp hrow with rfl | hrow
         · norm_num
         · rcases List.mem_cons.mp hrow with rfl | hrow
           · norm_num
           · rcases List.mem_cons.mp hrow with rfl | hrow
             · norm_num
             · rw [List.mem_singleton.mp hrow]; norm_num)
     (8 / 5) demo_score1,
   chi2_zero_column_nan_ranked_last.2.2.2 demoChiScores⟩

/-! ## Coefficient export (train_academic_model_new.py lines 182-191,
train_healthcare_model_new.py lines 188-210)

Both trainers fold the class-0 intercept into the class-0 coefficient row
(`intercept_per_feature = (intercept[0] * 1.8) / len(feature_columns)`
added to every entry) before writing `coefs.csv`; the healthcare trainer
additionally rescales by `np.abs(financial_coefs).max() /
np.abs(coefs_with_intercept[0]).max()` when the financial reference file
exists, and otherwise writes the folded row unchanged. -/

/-- `(intercept[0] * 1.8) / n` with `n = len(feature_columns)` (academic
line 182, healthcare line 188); `1.8 = 9/5`. -/
def intercept_per_feature (intercept : ℚ) (n : ℕ) : ℚ :=
  intercept * (9 / 5) / n

/-- The class-0 row after intercept folding: the fitted row plus
`intercept_per_feature` broadcast to every entry (academic lines 183-184,
healthcare lines 189-190). -/
def coefs_with_intercept (coefs : List ℚ) (intercept : ℚ) : List ℚ :=
  coefs.map (· + intercept_per_feature intercept coefs.length)

/-- `np.abs(w).max()` of a weight row (0 for an empty row). -/
def maxAbs (l : List ℚ) : ℚ := (l.map fun x => |x|).foldr max 0

/-- `scale_factor` (healthcare line 201): max |financial reference| over
max |intercept-folded healthcare row|. -/
def scale_factor (financial_coefs : List ℚ) (cwi : List ℚ) : ℚ :=
  maxAbs financial_coefs / maxAbs cwi

/-- The row the academic trainer writes to `coefs.csv` (line 191): the
intercept-folded row, unchanged. -/
def academic_export (coefs : List ℚ) (intercept : ℚ) : List ℚ :=
  coefs_with_intercept coefs intercept

/-- `coefs_final` (healthcare lines 199-207): if the financial reference
file exists (`some` its weight row) the folded row is multiplied by
`scale_factor`; if it does not exist (`none`) the folded row is used
unchanged and no error is raised. -/
def coefs_final (coefs : List ℚ) (intercept : ℚ)
    (financial : Option (List ℚ)) : List ℚ :=
  match financial with
  | some fin =>
      (coefs_with_intercept coefs intercept).map
        (· * scale_factor fin (coefs_with_intercept coefs intercept))
  | none => coefs_with_intercept coefs intercept

/-- C8 counterexample: with fitted row `[1]`, intercept `0` and financial
reference `[2]` present, the healthcare trainer exports `[2]`, not the
intercept-folded row `[1]` — so the exported row does not in general
equal the fitted row with `(intercept × 1.8)/n` added. -/
theorem healthcare_export_not_plain_folded :
    coefs_with_intercept [1] 0 = [1] ∧
    coefs_final [1] 0 (some [2]) = [2] ∧
    coefs_final [1] 0 (some [2]) ≠ coefs_with_intercept [1] 0 := by
  have h1 : coefs_with_intercept [1] 0 = [1] := by
    norm_num [coefs_with_intercept, intercept_per_feature]
  have h2 : coefs_final [1] 0 (some [2]) = [2] := by
    rw [coefs_final, h1]
    norm_num [scale_factor, maxAbs]
  refine ⟨h1, h2, ?_⟩
  rw [h1, h2]
  intro h
  exact absurd (List.cons.injEq .. ▸ h).1 (by norm_num)

/-- C8 amended: the intercept-folded class-0 row adds `(intercept × 1.8)/n`
uniformly to every entry of the fitted row (`n` = feature count); the
academic trainer exports it unchanged, and so does the healthcare trainer
when the financial reference is absent; when the reference is present the
healthcare trainer exports the folded row multiplied entrywise by the
single scalar `scale_factor`.  In every case no separate additive term is
exported. -/
theorem intercept_folded_uniformly_before_export :
    (∀ (coefs : List ℚ) (intercept : ℚ) (j : ℕ), j < coefs.length →
      (coefs_with_intercept coefs intercept).getD j 0 =
        coefs.getD j 0 + intercept * (9 / 5) / coefs.length) ∧
    (∀ (coefs : List ℚ) (intercept : ℚ),
      (coefs_with_intercept coefs intercept).length = coefs.length) ∧
    (∀ (coefs : List ℚ) (intercept : ℚ),
      academic_export coefs intercept = coefs_with_intercept coefs intercept) ∧
    (∀ (coefs : List ℚ) (intercept : ℚ),
      coefs_final coefs intercept none = coefs_with_intercept coefs intercept) ∧
    (∀ (coefs : List ℚ) (intercept : ℚ) (fin : List ℚ),
      coefs_final coefs intercept (some fin) =
        (coefs_with_intercept coefs intercept).map
          (· * scale_factor fin (coefs_with_intercept coefs intercept))) := by
  refine ⟨?_, ?_, fun _ _ => rfl, fun _ _ => rfl, fun _ _ _ => rfl⟩
  · intro coefs intercept j hj
    rw [coefs_with_intercept, List.getD_eq_getElem _ _ (by simpa using hj),
      List.getElem_map, List.getD_eq_getElem _ _ hj, intercept_per_feature]
  · intro coefs intercept
    exact List.length_map _ _

/-- Witness for C8 (amended) at fitted row `[4, 6]`, intercept `5`:
entry 0 of the folded row is `4 + 5·(9/5)/2`. -/
theorem intercept_folded_uniformly_before_export_witness :
    (coefs_with_intercept [4, 6] 5).getD 0 0 =
      List.getD [(4 : ℚ), 6] 0 0 + 5 * (9 / 5) / List.length [(4 : ℚ), 6] :=
  intercept_folded_uniformly_before_export.1 [4, 6] 5 0 (by norm_num)

lemma foldr_max_nonneg_init (l : List ℚ) : 0 ≤ l.foldr max 0 := by
  induction l with
  | nil => exact le_refl 0
  | cons x t ih => exact le_trans ih (le_max_right x _)

lemma maxAbs_nonneg (l : List ℚ) : 0 ≤ maxAbs l := foldr_max_nonneg_init _

lemma foldr_max_mul (c : ℚ) (hc : 0 ≤ c) (l : List ℚ) :
    (l.map fun x => c * x).foldr max 0 = c * l.foldr max 0 := by
  induction l with
  | nil => simp
  | cons x t ih =>
      rw [List.map_cons, List.foldr_cons, List.foldr_cons, ih,
        mul_max_of_nonneg _ _ hc]

lemma maxAbs_map_mul (s : ℚ) (l : List ℚ) :
    maxAbs (l.map (· * s)) = |s| * maxAbs l := by
  unfold maxAbs
  rw [List.map_map]
  have h1 : ((fun x => |x|) ∘ fun x => x * s) = fun x => |s| * |x| := by
    funext x
    simp [abs_mul, mul_comm]
  rw [h1]
  have h2 : (fun x : ℚ => |s| * |x|) = (fun x : ℚ => |s| * x) ∘ fun x => |x| :=
    rfl
  rw [h2, ← List.map_map, foldr_max_mul |s| (abs_nonneg s)]

/-- C9: when the financial reference file exists and the intercept-folded
healthcare row is not identically zero, every exported coefficient is the
folded coefficient times `max |financial| / max |folded|`, and the maximum
absolute value of the exported row equals the maximum absolute value of
the financial reference weights. -/
theorem healthcare_rescaled_to_financial_magnitude :
    ∀ (coefs : List ℚ) (intercept : ℚ) (fin : List ℚ),
      maxAbs (coefs_with_intercept coefs intercept) ≠ 0 →
      coefs_final coefs intercept (some fin) =
        (coefs_with_intercept coefs intercept).map
          (· * (maxAbs fin / maxAbs (coefs_with_intercept coefs intercept))) ∧
      maxAbs (coefs_final coefs intercept (some fin)) = maxAbs fin := by
  intro coefs intercept fin hne
  refine ⟨rfl, ?_⟩
  rw [coefs_final, maxAbs_map_mul, scale_factor,
    abs_of_nonneg (div_nonneg (maxAbs_nonneg fin)
      (maxAbs_nonneg (coefs_with_intercept coefs intercept))),
    div_mul_cancel₀ _ hne]

/-- Witness for C9 at fitted row `[1, -3]`, intercept `0`, financial
reference `[2, 1]`: the exported row is the folded row scaled by `2/3`,
and its max-absolute-value is `2`, matching the reference. -/
theorem healthcare_rescaled_to_financial_magnitude_witness :
    coefs_final [1, -3] 0 (some [2, 1]) =
      (coefs_with_intercept [1, -3] 0).map
        (· * (maxAbs [2, 1] / maxAbs (coefs_with_intercept [1, -3] 0))) ∧
    maxAbs (coefs_final [1, -3] 0 (some [2, 1])) = maxAbs [2, 1] :=
  healthcare_rescaled_to_financial_magnitude [1, -3] 0 [2, 1] (by
    norm_num [coefs_with_intercept, intercept_per_feature, maxAbs])

/-- C10: when the financial reference file does not exist, the healthcare
trainer exports the intercept-folded coefficients unchanged — entrywise
the fitted coefficient plus `(intercept × 1.8)/n` — with no magnitude
rescaling, and the export is total (the `else` branch raises no error). -/
theorem healthcare_export_without_reference_unscaled :
    ∀ (coefs : List ℚ) (intercept : ℚ),
      coefs_final coefs intercept none = coefs_with_intercept coefs intercept ∧
      coefs_final coefs intercept none =
        coefs.map fun c => c + intercept * (9 / 5) / coefs.length :=
  fun _ _ => ⟨rfl, rfl⟩

end HSA
